import Mathlib

/-!
Verification of the client-side state reconciliation engine of the blrec
webapp: the structural differ (`difference` in shared/utils.ts), the
settings synchronizer (`SettingsSyncService.syncSettings` and
`calcSyncStatus`), the change filter (`filterValueChanges` in
settings/shared/rx-operators.ts), the custom retry operator (`retry` in
shared/rx-operators.ts), the polling feeds (tasks.component.ts and
info-panel.component.ts) and the auth interceptor (auth.interceptor.ts
with auth.service.ts).

JavaScript values exchanged by these components are embedded as the
inductive type JSVal (plain data: scalars and plain objects given as
ordered association lists of own enumerable string keys).  The lodash
helpers the source uses (isEqual, isObject, isEmpty, transform iteration,
mapValues) and Reflect.get / Reflect.set are embedded on JSVal; code that
can throw a TypeError returns Except.
-/

namespace Blrec

/-- A JavaScript value as used by the settings snapshots: undefined, null,
booleans, numbers, strings and plain objects (ordered own enumerable
properties). -/
inductive JSVal where
  | undef : JSVal
  | null : JSVal
  | bool (b : Bool) : JSVal
  | num (n : Int) : JSVal
  | str (s : String) : JSVal
  | obj (fields : List (String × JSVal)) : JSVal
deriving Repr

mutual

def decEqVal : (a b : JSVal) → Decidable (a = b)
  | .undef, .undef => isTrue rfl
  | .null, .null => isTrue rfl
  | .bool a, .bool b =>
    match decEq a b with
    | isTrue h => isTrue (by rw [h])
    | isFalse h => isFalse (by intro hc; cases hc; exact h rfl)
  | .num a, .num b =>
    match decEq a b with
    | isTrue h => isTrue (by rw [h])
    | isFalse h => isFalse (by intro hc; cases hc; exact h rfl)
  | .str a, .str b =>
    match decEq a b with
    | isTrue h => isTrue (by rw [h])
    | isFalse h => isFalse (by intro hc; cases hc; exact h rfl)
  | .obj fs, .obj gs =>
    match decEqFields fs gs with
    | isTrue h => isTrue (by rw [h])
    | isFalse h => isFalse (by intro hc; cases hc; exact h rfl)
  | .undef, .null => isFalse (by intro h; cases h)
  | .undef, .bool _ => isFalse (by intro h; cases h)
  | .undef, .num _ => isFalse (by intro h; cases h)
  | .undef, .str _ => isFalse (by intro h; cases h)
  | .undef, .obj _ => isFalse (by intro h; cases h)
  | .null, .undef => isFalse (by intro h; cases h)
  | .null, .bool _ => isFalse (by intro h; cases h)
  | .null, .num _ => isFalse (by intro h; cases h)
  | .null, .str _ => isFalse (by intro h; cases h)
  | .null, .obj _ => isFalse (by intro h; cases h)
  | .bool _, .undef => isFalse (by intro h; cases h)
  | .bool _, .null => isFalse (by intro h; cases h)
  | .bool _, .num _ => isFalse (by intro h; cases h)
  | .bool _, .str _ => isFalse (by intro h; cases h)
  | .bool _, .obj _ => isFalse (by intro h; cases h)
  | .num _, .undef => isFalse (by intro h; cases h)
  | .num _, .null => isFalse (by intro h; cases h)
  | .num _, .bool _ => isFalse (by intro h; cases h)
  | .num _, .str _ => isFalse (by intro h; cases h)
  | .num _, .obj _ => isFalse (by intro h; cases h)
  | .str _, .undef => isFalse (by intro h; cases h)
  | .str _, .null => isFalse (by intro h; cases h)
  | .str _, .bool _ => isFalse (by intro h; cases h)
  | .str _, .num _ => isFalse (by intro h; cases h)
  | .str _, .obj _ => isFalse (by intro h; cases h)
  | .obj _, .undef => isFalse (by intro h; cases h)
  | .obj _, .null => isFalse (by intro h; cases h)
  | .obj _, .bool _ => isFalse (by intro h; cases h)
  | .obj _, .num _ => isFalse (by intro h; cases h)
  | .obj _, .str _ => isFalse (by intro h; cases h)

def decEqFields : (a b : List (String × JSVal)) → Decidable (a = b)
  | [], [] => isTrue rfl
  | [], _ :: _ => isFalse (by intro h; cases h)
  | _ :: _, [] => isFalse (by intro h; cases h)
  | (k, v) :: fs, (k', w) :: gs =>
    match decEq k k', decEqVal v w, decEqFields fs gs with
    | isTrue h1, isTrue h2, isTrue h3 => isTrue (by rw [h1, h2, h3])
    | isFalse h1, _, _ => isFalse (by intro hc; cases hc; exact h1 rfl)
    | _, isFalse h2, _ => isFalse (by intro hc; cases hc; exact h2 rfl)
    | _, _, isFalse h3 => isFalse (by intro hc; cases hc; exact h3 rfl)

end

instance : DecidableEq JSVal := decEqVal

/-- Induction principle for JSVal descending through the nested field
lists. -/
theorem JSVal.inductionOn {P : JSVal → Prop}
    (hundef : P .undef) (hnull : P .null) (hbool : ∀ b, P (.bool b))
    (hnum : ∀ n, P (.num n)) (hstr : ∀ s, P (.str s))
    (hobj : ∀ fs, (∀ kv ∈ fs, P kv.2) → P (.obj fs)) :
    ∀ v, P v
  | .undef => hundef
  | .null => hnull
  | .bool b => hbool b
  | .num n => hnum n
  | .str s => hstr s
  | .obj fs => hobj fs (fun kv hkv =>
      JSVal.inductionOn hundef hnull hbool hnum hstr hobj kv.2)
termination_by v => sizeOf v
decreasing_by
  have h1 : sizeOf kv < sizeOf fs := List.sizeOf_lt_of_mem hkv
  have h2 : sizeOf kv.2 < sizeOf kv := by
    obtain ⟨a, b⟩ := kv
    simp
  simp
  omega

/-- Property lookup on an object's own fields (first binding wins, as in a
JS object where keys are unique). -/
def lookupField : List (String × JSVal) → String → Option JSVal
  | [], _ => none
  | (k, v) :: rest, key => if k = key then some v else lookupField rest key

/-- Keys of a field list. -/
def fieldKeys (fs : List (String × JSVal)) : List String :=
  fs.map Prod.fst

/-- Top-level property read on a snapshot value (none outside objects). -/
def lookupJS : JSVal → String → Option JSVal
  | .obj fs, k => lookupField fs k
  | _, _ => none

/-- lodash isObject: true exactly for objects (null excluded; arrays and
functions are outside this embedding). -/
def isObjectJS : JSVal → Bool
  | .obj _ => true
  | _ => false

/-- lodash isEmpty restricted to the values this code applies it to:
an object is empty when it has no own enumerable key, a string when it has
no character, and every other value is empty. -/
def isEmptyJS : JSVal → Bool
  | .obj fs => fs.isEmpty
  | .str s => s.isEmpty
  | _ => true

/-- The own enumerable (key, value) properties that lodash transform
iterates: an object's fields; a string's indexed characters; nothing for
any other value. -/
def iterOwn : JSVal → List (String × JSVal)
  | .obj fs => fs
  | .str s => s.data.enum.map (fun p => (toString p.1, JSVal.str (String.mk [p.2])))
  | _ => []

mutual

/-- lodash isEqual on JSVal: deep structural equality; two objects are
equal when they have the same number of own keys and every field of the
first matches a field of the second (key order is irrelevant). -/
def isEqual : JSVal → JSVal → Bool
  | .undef, .undef => true
  | .null, .null => true
  | .bool a, .bool b => a == b
  | .num a, .num b => a == b
  | .str a, .str b => a == b
  | .obj fs, .obj gs => fs.length == gs.length && isEqualFields fs gs
  | _, _ => false

def isEqualFields : List (String × JSVal) → List (String × JSVal) → Bool
  | [], _ => true
  | (k, v) :: rest, gs =>
    (match lookupField gs k with
     | some w => isEqual v w
     | none => false) && isEqualFields rest gs

end

/-- Reflect.get: property read on an object; throws a TypeError when the
target is not an object (undefined, null or a primitive). An absent key
reads as undefined. -/
def reflectGet : JSVal → String → Except Unit JSVal
  | .obj fs, k => .ok ((lookupField fs k).getD .undef)
  | _, _ => .error ()

/-- The transform callback of the inner diff of difference
(shared/utils.ts), for a property list whose values are not objects (the
indexed characters of a string, or no properties at all): the recursive
branch of the callback is unreachable there, so this copy of the loop has
no recursive call. A property whose value deeply differs from the base's
is included verbatim; errors are TypeErrors from Reflect.get on a
non-object base. -/
def diffLeafFields : List (String × JSVal) → JSVal → Except Unit (List (String × JSVal))
  | [], _ => .ok []
  | (k, v) :: rest, base =>
    match reflectGet base k with
    | .error e => .error e
    | .ok baseValue =>
      match diffLeafFields rest base with
      | .error e => .error e
      | .ok tail =>
        if isEqual v baseValue then
          .ok tail
        else
          .ok ((k, v) :: tail)

mutual

/-- The transform loop of the inner diff of difference (shared/utils.ts)
over an object's own properties: a property whose value deeply differs
from the base's is included — recursively diffed when deep is set and
both sides are objects, verbatim otherwise. Errors are TypeErrors
escaping from Reflect.get on a non-object base. -/
def diffFields (deep : Bool) : List (String × JSVal) → JSVal → Except Unit (List (String × JSVal))
  | [], _ => .ok []
  | (k, v) :: rest, base =>
    match reflectGet base k with
    | .error e => .error e
    | .ok baseValue =>
      match diffFields deep rest base with
      | .error e => .error e
      | .ok tail =>
        match isEqual v baseValue with
        | true => .ok tail
        | false =>
          match deep && isObjectJS v && isObjectJS baseValue with
          | true =>
            match diffJS deep v baseValue with
            | .error e => .error e
            | .ok d => .ok ((k, d) :: tail)
          | false => .ok ((k, v) :: tail)

/-- The inner diff function of difference (shared/utils.ts): transform
over the current value's own enumerable properties. Objects iterate
their fields through diffFields; every other value (only reachable with
non-object properties, or at the top level) iterates through
diffLeafFields. -/
def diffJS (deep : Bool) : JSVal → JSVal → Except Unit JSVal
  | .obj ofs, base => (diffFields deep ofs base).map .obj
  | object, base => (diffLeafFields (iterOwn object) base).map .obj

end

/-- difference (shared/utils.ts) with its default deep = true, as the
settings synchronizer calls it: the delta of object against base. -/
def difference (object base : JSVal) : Except Unit JSVal :=
  diffJS true object base

instance instDecEqExcept {ε α : Type} [DecidableEq ε] [DecidableEq α] : DecidableEq (Except ε α)
  | .ok a, .ok b =>
    match decEq a b with
    | isTrue h => isTrue (by rw [h])
    | isFalse h => isFalse (by intro hc; cases hc; exact h rfl)
  | .error a, .error b =>
    match decEq a b with
    | isTrue h => isTrue (by rw [h])
    | isFalse h => isFalse (by intro hc; cases hc; exact h rfl)
  | .ok _, .error _ => isFalse (by intro h; cases h)
  | .error _, .ok _ => isFalse (by intro h; cases h)

/-- trimString (settings/shared/rx-operators.ts): transform every own
property of the emitted object into a fresh object, trimming string
values and copying the rest. -/
def trimString (v : JSVal) : JSVal :=
  .obj ((iterOwn v).map (fun kv =>
    (kv.1,
      match kv.2 with
      | .str s => .str s.trim
      | w => w)))

/-- The tail of distinctUntilChanged after some value was last emitted:
an arrival the comparator deems equal to the last emitted value is
dropped, a different one is emitted and becomes the new comparison
point. -/
def distinctFrom {α : Type} (comparator : α → α → Bool) (last : α) : List α → List α
  | [] => []
  | y :: ys =>
    if comparator last y then distinctFrom comparator last ys
    else y :: distinctFrom comparator y ys

/-- rxjs distinctUntilChanged with an explicit comparator: the first
arrival is always emitted, later arrivals only when the comparator says
they differ from the last emitted value. -/
def distinctUntilChanged {α : Type} (comparator : α → α → Bool) : List α → List α
  | [] => []
  | x :: xs => x :: distinctFrom comparator x xs

/-- rxjs debounceTime over a timed arrival list (arrival times weakly
increasing): an arrival is emitted only when no further arrival happens
within the quiet window after it; the last arrival is always emitted. -/
def debounceTime {α : Type} (window : Nat) : List (Nat × α) → List α
  | [] => []
  | [x] => [x.2]
  | x :: y :: rest =>
    if y.1 ≤ x.1 + window then debounceTime window (y :: rest)
    else x.2 :: debounceTime window (y :: rest)

/-- filterValueChanges (settings/shared/rx-operators.ts) on a timed list
of raw form emissions tagged with the validity of the source control at
that moment: drop invalid emissions, debounce with a 300 ms quiet window,
trim string fields, then drop arrivals deeply equal to the last emitted
value. -/
def filterValueChanges (events : List (Nat × JSVal × Bool)) : List JSVal :=
  distinctUntilChanged isEqual
    ((debounceTime 300 ((events.filter (fun e => e.2.2)).map (fun e => (e.1, e.2.1)))).map
      trimString)

/-- One element of the scan inside SettingsSyncService.syncSettings: the
emitted accumulator holding the previous snapshot, the incoming edit and
their delta. -/
structure SyncDetail where
  prev : JSVal
  curr : JSVal
  diff : JSVal
deriving Repr, DecidableEq

/-- The scan of SettingsSyncService.syncSettings: starting from
initialValue, each edit is paired with the snapshot carried over from the
one before it and with difference(edit, previous); a TypeError thrown by
difference errors the stream. -/
def syncScan (prevValue : JSVal) : List JSVal → Except Unit (List SyncDetail)
  | [] => .ok []
  | e :: rest =>
    match difference e prevValue with
    | .error err => .error err
    | .ok d =>
      match syncScan e rest with
      | .error err => .error err
      | .ok tail => .ok (⟨prevValue, e, d⟩ :: tail)

/-- The scan elements surviving the isEmpty filter of syncSettings:
exactly those whose delta is non-empty; each of them causes one
changeSettings request (and, unless cancelled by a later edit, one
emitted record). -/
def acceptedDetails (initialValue : JSVal) (edits : List JSVal) :
    Except Unit (List SyncDetail) :=
  (syncScan initialValue edits).map (List.filter (fun r => !isEmptyJS r.diff))

/-- Number of network writes syncSettings issues for an edit stream. -/
def networkWrites (initialValue : JSVal) (edits : List JSVal) : Except Unit Nat :=
  (acceptedDetails initialValue edits).map List.length

/-- Outcome slot of a DetailWithResult / DetailWithError record of
settings-sync.service.ts. -/
inductive SyncOutcome where
  | result (settings : JSVal)
  | failure (status : Nat)
deriving Repr, DecidableEq

/-- A record emitted by syncSettings: prev, curr, diff plus either the
result settings or the HttpErrorResponse. -/
structure DetailRecord where
  prev : JSVal
  curr : JSVal
  diff : JSVal
  outcome : SyncOutcome
deriving Repr, DecidableEq

/-- Discriminates DetailWithResult from DetailWithError, as the
expression (result in detail) of calcSyncStatus does. -/
def isSuccessful : SyncOutcome → Bool
  | .result _ => true
  | .failure _ => false

/-- calcSyncStatus (settings-sync.service.ts): mapValues over the
record's diff sending every key to true on success and false on
failure. -/
def calcSyncStatus (detail : DetailRecord) : List (String × Bool) :=
  (iterOwn detail.diff).map (fun kv => (kv.1, isSuccessful detail.outcome))

/-- The per-field status a settings component starts from (ngOnChanges of
output-settings.component.ts): mapValues over the settings snapshot
sending every key to true. -/
def initialSyncStatus (settings : JSVal) : List (String × Bool) :=
  (iterOwn settings).map (fun kv => (kv.1, true))

/-- Lookup in a per-field status mapping. -/
def lookupStatus : List (String × Bool) → String → Option Bool
  | [], _ => none
  | (k, b) :: rest, key => if k = key then some b else lookupStatus rest key

/-- The object-spread merge a settings component applies on every record
(ngOnInit of output-settings.component.ts): previous keys keep their
order, values overridden by the update where present, and keys new in the
update are appended. -/
def spreadStatus (prev upd : List (String × Bool)) : List (String × Bool) :=
  prev.map (fun kv => (kv.1, (lookupStatus upd kv.1).getD kv.2))
    ++ upd.filter (fun kv => !(prev.map Prod.fst).contains kv.1)

/-- The attempts of the retry operator (shared/rx-operators.ts) with a
finite count, from attempt i with some retries remaining: a success ends
the run; a failure re-subscribes while retries remain, and the failure
observed once they are exhausted is surfaced unchanged. Returns the
total number of invocations with the final outcome. The fixed
inter-attempt delay affects only timing and is not modelled; an infinite
count never surfaces an error and is outside this finite model. -/
def retryAttempts {ε α : Type} (op : Nat → Except ε α) : Nat → Nat → Nat × Except ε α
  | 0, i => (i + 1, op i)
  | r + 1, i =>
    match op i with
    | .ok a => (i + 1, .ok a)
    | .error _ => retryAttempts op r (i + 1)

/-- retry(count, delay) of shared/rx-operators.ts with a finite count:
delayWhen rethrows the error whose zero-based index reaches count, so
the operation is re-invoked after each of the first count failures. -/
def retry {ε α : Type} (count : Nat) (op : Nat → Except ε α) : Nat × Except ε α :=
  retryAttempts op count 0

/-- The credential store behind AuthService
(core/services/auth.service.ts): the api key held by StorageService. -/
structure AuthStore where
  apiKey : Option String
deriving Repr, DecidableEq

/-- AuthService.hasApiKey. -/
def hasApiKey (s : AuthStore) : Bool :=
  s.apiKey.isSome

/-- AuthService.getApiKey: the stored key, or the empty string. -/
def getApiKey (s : AuthStore) : String :=
  s.apiKey.getD ""

/-- AuthService.setApiKey. -/
def setApiKey (value : String) (_ : AuthStore) : AuthStore :=
  ⟨some value⟩

/-- AuthService.removeApiKey. -/
def removeApiKey (_ : AuthStore) : AuthStore :=
  ⟨none⟩

/-- An HTTP error response; its status is all the interceptor inspects. -/
structure HttpErrorResponse where
  status : Nat
deriving Repr, DecidableEq

/-- Everything observable from one intercepted request: the api key each
attempt put on the wire, in order; how many times the operator was
prompted; the final credential store; and the outcome the caller sees. -/
structure InterceptRun (α : Type) where
  sentKeys : List String
  promptCount : Nat
  store : AuthStore
  outcome : Except HttpErrorResponse α
deriving Repr, DecidableEq

/-- The catchError callback of AuthInterceptor.intercept
(auth.interceptor.ts): on a 401 the stored credential is removed when
present, the operator is prompted (window.prompt, null coerced to the
empty string by the nullish coalescing) and the reply stored; every
error is rethrown. -/
def catchError401 (prompts : Nat → Option String) (store : AuthStore) (pIdx : Nat)
    (error : HttpErrorResponse) : AuthStore × Nat :=
  if error.status = 401 then
    let store1 := if hasApiKey store then removeApiKey store else store
    let apiKey := (prompts pIdx).getD ""
    (setApiKey apiKey store1, pIdx + 1)
  else
    (store, pIdx)

/-- The cumulative effect of the catchError callback over a run of error
responses: the credential store and prompt count folded through
catchError401 in response order. -/
def promptFold (prompts : Nat → Option String) :
    AuthStore × Nat → List HttpErrorResponse → AuthStore × Nat
  | acc, [] => acc
  | acc, e :: rest => promptFold prompts (catchError401 prompts acc.1 acc.2 e) rest

/-- The attempt loop of AuthInterceptor.intercept: next.handle of the
eagerly cloned request (its header fixed to clonedKey), the catchError
callback on each error, and rxjs retry re-subscribing while retriesLeft
is positive; the error of the final attempt propagates unchanged.
handle takes the zero-based attempt number and the api key on the
wire. -/
def interceptAttempts {α : Type} (handle : Nat → String → Except HttpErrorResponse α)
    (prompts : Nat → Option String) (clonedKey : String) :
    Nat → Nat → Nat → AuthStore → InterceptRun α
  | retriesLeft, attempt, pIdx, store =>
    match handle attempt clonedKey with
    | .ok a => ⟨[clonedKey], pIdx, store, .ok a⟩
    | .error e =>
      let next := catchError401 prompts store pIdx e
      match retriesLeft with
      | 0 => ⟨[clonedKey], next.2, next.1, .error e⟩
      | r + 1 =>
        let rest := interceptAttempts handle prompts clonedKey r (attempt + 1) next.2 next.1
        ⟨clonedKey :: rest.sentKeys, rest.promptCount, rest.store, rest.outcome⟩

/-- AuthInterceptor.intercept (auth.interceptor.ts): the request is
cloned once, eagerly, with the X-API-KEY header read from the store at
call time; the cloned request is what rxjs retry(3) re-subscribes, so up
to 3 re-subscriptions follow the initial attempt, all carrying the same
key. -/
def intercept {α : Type} (handle : Nat → String → Except HttpErrorResponse α)
    (prompts : Nat → Option String) (store0 : AuthStore) : InterceptRun α :=
  interceptAttempts handle prompts (getApiKey store0) 3 0 0 store0

/-- Tick times of the polling feeds (syncTaskData of tasks.component.ts
and syncData of info-panel.component.ts): of(of(0), interval(p)) under
concatAll emits tick k at wall-clock time k * p after subscription,
independent of any fetch. -/
def pollTickTime (p k : Nat) : Nat :=
  k * p

/-- Fetch k is started by tick k and, absent cancellation, is pending
until its duration elapses. -/
def pollFetchPending (p : Nat) (dur : Nat → Nat) (k t : Nat) : Prop :=
  pollTickTime p k ≤ t ∧ t < pollTickTime p k + dur k

instance (p : Nat) (dur : Nat → Nat) (k t : Nat) : Decidable (pollFetchPending p dur k t) := by
  unfold pollFetchPending
  infer_instance

/-- switchMap unsubscribes the pending fetch when the next tick fires:
fetch k is active from its tick until it completes or tick k + 1
fires, whichever is first. -/
def pollFetchActive (p : Nat) (dur : Nat → Nat) (k t : Nat) : Prop :=
  pollTickTime p k ≤ t ∧ t < min (pollTickTime p (k + 1)) (pollTickTime p k + dur k)

instance (p : Nat) (dur : Nat → Nat) (k t : Nat) : Decidable (pollFetchActive p dur k t) := by
  unfold pollFetchActive
  infer_instance

/-- Key lists without repetition, as the own keys of a JS object are. -/
def keysNodup : List String → Bool
  | [] => true
  | k :: rest => !(rest.contains k) && keysNodup rest

mutual

/-- Two values have the same shape when their nesting matches: objects
align key-for-key in order with same-shaped values, and non-object
leaves face non-object leaves. -/
def sameShape : JSVal → JSVal → Bool
  | .obj fs, .obj gs => sameShapeFields fs gs
  | .obj _, _ => false
  | _, .obj _ => false
  | _, _ => true

def sameShapeFields : List (String × JSVal) → List (String × JSVal) → Bool
  | [], [] => true
  | (k, v) :: fs, (k', w) :: gs => k == k' && sameShape v w && sameShapeFields fs gs
  | _, _ => false

end

mutual

/-- Well-formed snapshot value: object keys are pairwise distinct at
every nesting level, as the own keys of a JS object are. -/
def wfJS : JSVal → Bool
  | .obj fs => keysNodup (fieldKeys fs) && wfFields fs
  | _ => true

def wfFields : List (String × JSVal) → Bool
  | [] => true
  | (_, v) :: rest => wfJS v && wfFields rest

end

mutual

/-- Modelled from the spec: the repository ships no apply function; §3
and §8 of the spec define application of a delta — a field of the
snapshot not named by the delta is kept, a field named by the delta is
replaced by the delta's value (apply = replace at scalar leaves), and a
nested sub-result is applied recursively to the nested snapshot. -/
def applyDelta : JSVal → JSVal → JSVal
  | .obj fs, .obj ds => .obj (applyFields fs ds)
  | _, delta => delta

def applyFields : List (String × JSVal) → List (String × JSVal) → List (String × JSVal)
  | [], _ => []
  | (k, v) :: rest, ds =>
    (k,
      match lookupField ds k with
      | none => v
      | some w => applyDelta v w) :: applyFields rest ds

end

/-! Supporting lemmas. -/

theorem retryAttempts_zero {ε α : Type} (op : Nat → Except ε α) (i : Nat) :
    retryAttempts op 0 i = (i + 1, op i) :=
  rfl

theorem retryAttempts_succ_ok {ε α : Type} {op : Nat → Except ε α} {i : Nat} {a : α}
    (h : op i = .ok a) (r : Nat) : retryAttempts op (r + 1) i = (i + 1, .ok a) := by
  rw [retryAttempts, h]

theorem retryAttempts_succ_error {ε α : Type} {op : Nat → Except ε α} {i : Nat} {e : ε}
    (h : op i = .error e) (r : Nat) :
    retryAttempts op (r + 1) i = retryAttempts op r (i + 1) := by
  rw [retryAttempts, h]

theorem retryAttempts_fst_le {ε α : Type} (op : Nat → Except ε α) :
    ∀ (r i : Nat), (retryAttempts op r i).1 ≤ i + r + 1 := by
  intro r
  induction r with
  | zero =>
    intro i
    rw [retryAttempts_zero]
  | succ r ih =>
    intro i
    rcases ho : op i with e | a
    · rw [retryAttempts_succ_error ho]
      have := ih (i + 1)
      omega
    · rw [retryAttempts_succ_ok ho]
      show i + 1 ≤ i + (r + 1) + 1
      omega

theorem interceptAttempts_ok {α : Type} {handle : Nat → String → Except HttpErrorResponse α}
    {prompts : Nat → Option String} {clonedKey : String} {a : Nat} {v : α}
    (h : handle a clonedKey = .ok v) (r i : Nat) (s : AuthStore) :
    interceptAttempts handle prompts clonedKey r a i s = ⟨[clonedKey], i, s, .ok v⟩ := by
  rw [interceptAttempts, h]

theorem interceptAttempts_error_zero {α : Type}
    {handle : Nat → String → Except HttpErrorResponse α}
    {prompts : Nat → Option String} {clonedKey : String} {a : Nat} {e : HttpErrorResponse}
    (h : handle a clonedKey = .error e) (i : Nat) (s : AuthStore) :
    interceptAttempts handle prompts clonedKey 0 a i s =
      ⟨[clonedKey], (catchError401 prompts s i e).2, (catchError401 prompts s i e).1,
        .error e⟩ := by
  rw [interceptAttempts, h]

theorem interceptAttempts_error_succ {α : Type}
    {handle : Nat → String → Except HttpErrorResponse α}
    {prompts : Nat → Option String} {clonedKey : String} {a : Nat} {e : HttpErrorResponse}
    (h : handle a clonedKey = .error e) (r i : Nat) (s : AuthStore) :
    interceptAttempts handle prompts clonedKey (r + 1) a i s =
      ⟨clonedKey ::
          (interceptAttempts handle prompts clonedKey r (a + 1)
            (catchError401 prompts s i e).2 (catchError401 prompts s i e).1).sentKeys,
        (interceptAttempts handle prompts clonedKey r (a + 1)
          (catchError401 prompts s i e).2 (catchError401 prompts s i e).1).promptCount,
        (interceptAttempts handle prompts clonedKey r (a + 1)
          (catchError401 prompts s i e).2 (catchError401 prompts s i e).1).store,
        (interceptAttempts handle prompts clonedKey r (a + 1)
          (catchError401 prompts s i e).2 (catchError401 prompts s i e).1).outcome⟩ := by
  rw [interceptAttempts, h]

theorem interceptAttempts_sentKeys_le {α : Type}
    (handle : Nat → String → Except HttpErrorResponse α)
    (prompts : Nat → Option String) (clonedKey : String) :
    ∀ (r a i : Nat) (s : AuthStore),
      (interceptAttempts handle prompts clonedKey r a i s).sentKeys.length ≤ r + 1 := by
  intro r
  induction r with
  | zero =>
    intro a i s
    rcases hh : handle a clonedKey with e | v
    · rw [interceptAttempts_error_zero hh]
      simp
    · rw [interceptAttempts_ok hh]
      simp
  | succ r ih =>
    intro a i s
    rcases hh : handle a clonedKey with e | v
    · rw [interceptAttempts_error_succ hh]
      have := ih (a + 1) (catchError401 prompts s i e).2 (catchError401 prompts s i e).1
      simp
      omega
    · rw [interceptAttempts_ok hh]
      simp

theorem interceptAttempts_sentKeys_eq {α : Type}
    (handle : Nat → String → Except HttpErrorResponse α)
    (prompts : Nat → Option String) (clonedKey : String) :
    ∀ (r a i : Nat) (s : AuthStore),
      ∀ k ∈ (interceptAttempts handle prompts clonedKey r a i s).sentKeys, k = clonedKey := by
  intro r
  induction r with
  | zero =>
    intro a i s k hk
    rcases hh : handle a clonedKey with e | v
    · rw [interceptAttempts_error_zero hh] at hk
      simpa using hk
    · rw [interceptAttempts_ok hh] at hk
      simpa using hk
  | succ r ih =>
    intro a i s k hk
    rcases hh : handle a clonedKey with e | v
    · rw [interceptAttempts_error_succ hh] at hk
      simp at hk
      rcases hk with h | h
      · exact h
      · exact ih (a + 1) (catchError401 prompts s i e).2 (catchError401 prompts s i e).1 k h
    · rw [interceptAttempts_ok hh] at hk
      simpa using hk

theorem interceptAttempts_allfail {α : Type}
    {handle : Nat → String → Except HttpErrorResponse α}
    {prompts : Nat → Option String} {clonedKey : String} {err : Nat → HttpErrorResponse}
    (hfail : ∀ i k, handle i k = .error (err i)) :
    ∀ (r a i : Nat) (s : AuthStore),
      interceptAttempts handle prompts clonedKey r a i s =
        ⟨List.replicate (r + 1) clonedKey,
          (promptFold prompts (s, i) ((List.range (r + 1)).map (fun n => err (a + n)))).2,
          (promptFold prompts (s, i) ((List.range (r + 1)).map (fun n => err (a + n)))).1,
          .error (err (a + r))⟩ := by
  intro r
  induction r with
  | zero =>
    intro a i s
    rw [interceptAttempts_error_zero (hfail a _)]
    simp [promptFold]
  | succ r ih =>
    intro a i s
    rw [interceptAttempts_error_succ (hfail a _), ih (a + 1)]
    have hrange : (List.range (r + 1 + 1)).map (fun n => err (a + n)) =
        err a :: (List.range (r + 1)).map (fun n => err (a + 1 + n)) := by
      rw [List.range_succ_eq_map]
      simp [List.map_map, Function.comp]
      intro n hn
      congr 1
      omega
    rw [hrange]
    have harith : a + 1 + r = a + (r + 1) := by omega
    simp [promptFold, harith, List.replicate_succ]

theorem chain'_distinctFrom {α : Type} (comparator : α → α → Bool) :
    ∀ (l : List α) (last : α),
      List.Chain' (fun a b => comparator a b = false) (last :: distinctFrom comparator last l) := by
  intro l
  induction l with
  | nil => intro last; simp [distinctFrom]
  | cons y ys ih =>
    intro last
    cases hc : comparator last y with
    | true => simpa [distinctFrom, hc] using ih last
    | false =>
      have hstep : distinctFrom comparator last (y :: ys) =
          y :: distinctFrom comparator y ys := by
        simp [distinctFrom, hc]
      rw [hstep]
      exact List.chain'_cons.mpr ⟨hc, ih y⟩

theorem chain'_distinctUntilChanged {α : Type} (comparator : α → α → Bool) (l : List α) :
    List.Chain' (fun a b => comparator a b = false) (distinctUntilChanged comparator l) := by
  cases l with
  | nil => simp [distinctUntilChanged]
  | cons x xs => exact chain'_distinctFrom comparator xs x

theorem lookupStatus_map_const (b : Bool) :
    ∀ (l : List (String × JSVal)) (k : String),
      k ∈ fieldKeys l →
      lookupStatus (l.map (fun kv => (kv.1, b))) k = some b := by
  intro l
  induction l with
  | nil => intro k hk; simp [fieldKeys] at hk
  | cons kv rest ih =>
    intro k hk
    obtain ⟨k0, v0⟩ := kv
    by_cases hke : k0 = k
    · simp [lookupStatus, hke]
    · have : k ∈ fieldKeys rest := by
        simp [fieldKeys] at hk ⊢
        rcases hk with h | h
        · exact absurd h.symm hke
        · exact h
      simp [lookupStatus, hke]
      exact ih k this

theorem lookupStatus_map_const_none (b : Bool) :
    ∀ (l : List (String × JSVal)) (k : String),
      k ∉ fieldKeys l →
      lookupStatus (l.map (fun kv => (kv.1, b))) k = none := by
  intro l
  induction l with
  | nil => intro k _; simp [lookupStatus]
  | cons kv rest ih =>
    intro k hk
    obtain ⟨k0, v0⟩ := kv
    have hne : k0 ≠ k := by
      intro hc
      exact hk (by simp [fieldKeys, hc])
    have : k ∉ fieldKeys rest := by
      intro hc
      exact hk (by simp [fieldKeys]; right; simpa [fieldKeys] using hc)
    simp [lookupStatus, hne]
    exact ih k this

theorem lookupStatus_filter_none :
    ∀ (upd : List (String × Bool)) (p : String × Bool → Bool) (k : String),
      lookupStatus upd k = none → lookupStatus (upd.filter p) k = none := by
  intro upd
  induction upd with
  | nil => intro p k _; simp [lookupStatus]
  | cons kv rest ih =>
    intro p k hk
    obtain ⟨k0, b0⟩ := kv
    have hne : k0 ≠ k := by
      intro hc
      simp [lookupStatus, hc] at hk
    have hrest : lookupStatus rest k = none := by
      simpa [lookupStatus, hne] using hk
    by_cases hp : p (k0, b0)
    · simp [List.filter, hp, lookupStatus, hne]
      exact ih p k hrest
    · simp [List.filter, hp]
      exact ih p k hrest

theorem lookupStatus_append :
    ∀ (a b : List (String × Bool)) (k : String),
      lookupStatus (a ++ b) k =
        match lookupStatus a k with
        | some v => some v
        | none => lookupStatus b k := by
  intro a
  induction a with
  | nil => intro b k; simp [lookupStatus]
  | cons kv rest ih =>
    intro b k
    obtain ⟨k0, b0⟩ := kv
    by_cases hke : k0 = k
    · simp [lookupStatus, hke]
    · simp [lookupStatus, hke]
      exact ih b k

theorem lookupStatus_map_getD :
    ∀ (prev upd : List (String × Bool)) (k : String),
      lookupStatus (prev.map (fun kv => (kv.1, (lookupStatus upd kv.1).getD kv.2))) k =
        (lookupStatus prev k).map (fun b => (lookupStatus upd k).getD b) := by
  intro prev
  induction prev with
  | nil => intro upd k; simp [lookupStatus]
  | cons kv rest ih =>
    intro upd k
    obtain ⟨k0, b0⟩ := kv
    by_cases hke : k0 = k
    · subst hke
      simp [lookupStatus]
    · simp [lookupStatus, hke]
      exact ih upd k

theorem lookupStatus_spread_of_none :
    ∀ (prev upd : List (String × Bool)) (k : String),
      lookupStatus upd k = none →
      lookupStatus (spreadStatus prev upd) k = lookupStatus prev k := by
  intro prev upd k hk
  rw [spreadStatus, lookupStatus_append, lookupStatus_map_getD]
  cases hp : lookupStatus prev k with
  | some b => simp [hk]
  | none =>
    exact lookupStatus_filter_none upd _ k hk

theorem lookupField_self :
    ∀ (fs : List (String × JSVal)) (k : String) (v : JSVal),
      keysNodup (fieldKeys fs) = true → (k, v) ∈ fs → lookupField fs k = some v := by
  intro fs
  induction fs with
  | nil => intro k v _ hm; cases hm
  | cons kv rest ih =>
    intro k v hnd hm
    obtain ⟨k0, v0⟩ := kv
    have hnd' : (fieldKeys rest).contains k0 = false ∧ keysNodup (fieldKeys rest) = true := by
      simpa [keysNodup, fieldKeys] using hnd
    rcases List.mem_cons.mp hm with h1 | h1
    · cases h1
      simp [lookupField]
    · have hne : k0 ≠ k := by
        intro hc
        subst hc
        have hmem : k0 ∈ fieldKeys rest := by
          simp [fieldKeys]
          exact ⟨v, h1⟩
        have hnc : k0 ∉ fieldKeys rest := by simpa using hnd'.1
        exact hnc hmem
      simp [lookupField, hne]
      exact ih k v hnd'.2 h1

theorem wfFields_mem :
    ∀ (fs : List (String × JSVal)), wfFields fs = true → ∀ kv ∈ fs, wfJS kv.2 = true := by
  intro fs
  induction fs with
  | nil => intro _ kv hm; cases hm
  | cons kv0 rest ih =>
    intro hwf kv hm
    obtain ⟨k0, v0⟩ := kv0
    have h2 : wfJS v0 = true ∧ wfFields rest = true := by
      simpa [wfFields] using hwf
    rcases List.mem_cons.mp hm with h1 | h1
    · subst h1
      exact h2.1
    · exact ih h2.2 kv h1

theorem isEqualFields_of_pointwise :
    ∀ (fs gs : List (String × JSVal)),
      (∀ kv ∈ fs, ∃ w, lookupField gs kv.1 = some w ∧ isEqual kv.2 w = true) →
      isEqualFields fs gs = true := by
  intro fs
  induction fs with
  | nil => intro gs _; simp [isEqualFields]
  | cons kv rest ih =>
    intro gs hpt
    obtain ⟨k, v⟩ := kv
    obtain ⟨w, hw, he⟩ := hpt (k, v) (by simp)
    have htail := ih gs (fun kv hm => hpt kv (List.mem_cons_of_mem _ hm))
    simp [isEqualFields, hw, he, htail]

theorem isEqual_refl : ∀ v : JSVal, wfJS v = true → isEqual v v = true := by
  intro v
  induction v using JSVal.inductionOn with
  | hundef => intro _; rfl
  | hnull => intro _; rfl
  | hbool b => intro _; simp [isEqual]
  | hnum n => intro _; simp [isEqual]
  | hstr s => intro _; simp [isEqual]
  | hobj fs ih =>
    intro hwf
    have hsplit : keysNodup (fieldKeys fs) = true ∧ wfFields fs = true := by
      simpa [wfJS] using hwf
    have hfields : isEqualFields fs fs = true := by
      refine isEqualFields_of_pointwise fs fs ?_
      intro kv hm
      refine ⟨kv.2, ?_, ?_⟩
      · exact lookupField_self fs kv.1 kv.2 hsplit.1 (by simpa using hm)
      · exact ih kv hm (wfFields_mem fs hsplit.2 kv hm)
    simp [isEqual, hfields]

theorem diffFields_pointwise_skip :
    ∀ (fs gs : List (String × JSVal)),
      (∀ kv ∈ fs, ∃ w, lookupField gs kv.1 = some w ∧ isEqual kv.2 w = true) →
      diffFields true fs (.obj gs) = .ok [] := by
  intro fs
  induction fs with
  | nil => intro gs _; rfl
  | cons kv rest ih =>
    intro gs hpt
    obtain ⟨k, v⟩ := kv
    obtain ⟨w, hw, he⟩ := hpt (k, v) (by simp)
    have htail := ih gs (fun kv hm => hpt kv (List.mem_cons_of_mem _ hm))
    have hget : reflectGet (.obj gs) k = .ok w := by
      simp [reflectGet, hw]
    rw [diffFields, hget, htail]
    simp [he]

theorem difference_self :
    ∀ e : JSVal, isObjectJS e = true → wfJS e = true → difference e e = .ok (.obj []) := by
  intro e hobj hwf
  cases e with
  | obj fs =>
    have hsplit : keysNodup (fieldKeys fs) = true ∧ wfFields fs = true := by
      simpa [wfJS] using hwf
    have : diffFields true fs (.obj fs) = .ok [] := by
      refine diffFields_pointwise_skip fs fs ?_
      intro kv hm
      refine ⟨kv.2, ?_, ?_⟩
      · exact lookupField_self fs kv.1 kv.2 hsplit.1 (by simpa using hm)
      · exact isEqual_refl kv.2 (wfFields_mem fs hsplit.2 kv hm)
    simp [difference, diffJS, this, Except.map]
  | undef => cases hobj
  | null => cases hobj
  | bool b => cases hobj
  | num n => cases hobj
  | str s => cases hobj

theorem syncScan_append :
    ∀ (xs : List JSVal) (p e : JSVal),
      syncScan p (xs ++ [e]) =
        (syncScan p xs).bind (fun recs =>
          (difference e (xs.getLastD p)).map
            (fun d => recs ++ [⟨xs.getLastD p, e, d⟩])) := by
  intro xs
  induction xs with
  | nil =>
    intro p e
    simp only [List.nil_append, List.getLastD_nil]
    rcases hd : difference e p with u | d <;>
      simp [syncScan, hd, Except.bind, Except.map]
  | cons x rest ih =>
    intro p e
    have hlast : (x :: rest).getLastD p = rest.getLastD x := List.getLastD_cons p x rest
    simp only [List.cons_append, syncScan, hlast, List.append_eq]
    rcases hd : difference x p with u | d
    · simp [Except.bind]
    · rw [ih x]
      rcases ht : syncScan x rest with u | tail
      · simp [Except.bind]
      · rcases he : difference e (rest.getLastD x) with u | d2 <;>
          simp [Except.bind, Except.map]

theorem isObjectJS_eq_true : ∀ v : JSVal, isObjectJS v = true → ∃ fs, v = .obj fs := by
  intro v h
  cases v with
  | obj fs => exact ⟨fs, rfl⟩
  | undef => cases h
  | null => cases h
  | bool b => cases h
  | num n => cases h
  | str s => cases h

theorem diffLeafFields_obj_ok :
    ∀ (l gs : List (String × JSVal)), ∃ ds, diffLeafFields l (.obj gs) = .ok ds := by
  intro l
  induction l with
  | nil => intro gs; exact ⟨[], rfl⟩
  | cons kv rest ih =>
    intro gs
    obtain ⟨k, v⟩ := kv
    obtain ⟨ds, hds⟩ := ih gs
    have hget : reflectGet (.obj gs) k = .ok ((lookupField gs k).getD .undef) := rfl
    cases he : isEqual v ((lookupField gs k).getD .undef) with
    | true => exact ⟨ds, by rw [diffLeafFields, hget, hds]; simp [he]⟩
    | false => exact ⟨(k, v) :: ds, by rw [diffLeafFields, hget, hds]; simp [he]⟩

theorem diffFields_obj_ok :
    ∀ (n : Nat) (l gs : List (String × JSVal)), sizeOf l ≤ n →
      ∃ ds, diffFields true l (.obj gs) = .ok ds := by
  intro n
  induction n with
  | zero =>
    intro l gs h
    cases l with
    | nil => exact ⟨[], rfl⟩
    | cons kv rest =>
      obtain ⟨k, v⟩ := kv
      exfalso
      simp at h
  | succ n ih =>
    intro l gs h
    cases l with
    | nil => exact ⟨[], rfl⟩
    | cons kv rest =>
      obtain ⟨k, v⟩ := kv
      have hrest : sizeOf rest ≤ n := by
        simp at h
        omega
      obtain ⟨tail, htail⟩ := ih rest gs hrest
      have hget : reflectGet (.obj gs) k = .ok ((lookupField gs k).getD .undef) := rfl
      cases he : isEqual v ((lookupField gs k).getD .undef) with
      | true => exact ⟨tail, by rw [diffFields, hget, htail]; simp [he]⟩
      | false =>
        cases hg : isObjectJS v && isObjectJS ((lookupField gs k).getD .undef) with
        | false =>
          refine ⟨(k, v) :: tail, ?_⟩
          rw [diffFields, hget, htail]
          simp [he, hg]
        | true =>
          have hpair : isObjectJS v = true ∧
              isObjectJS ((lookupField gs k).getD .undef) = true := by
            simpa using hg
          obtain ⟨vfs, hveq⟩ := isObjectJS_eq_true v hpair.1
          obtain ⟨bfs, hbeq⟩ := isObjectJS_eq_true _ hpair.2
          have hvfs : sizeOf vfs ≤ n := by
            subst hveq
            simp at h
            omega
          obtain ⟨ds2, hds2⟩ := ih vfs bfs hvfs
          refine ⟨(k, .obj ds2) :: tail, ?_⟩
          rw [diffFields, hget, htail]
          subst hveq
          rw [hbeq] at he ⊢
          simp [he, isObjectJS, diffJS, hds2, Except.map]

theorem lookupField_eq_none :
    ∀ (l : List (String × JSVal)) (k : String), k ∉ fieldKeys l → lookupField l k = none := by
  intro l
  induction l with
  | nil => intro k _; rfl
  | cons kv rest ih =>
    intro k hk
    obtain ⟨k0, v0⟩ := kv
    have hne : k0 ≠ k := by
      intro hc
      exact hk (by simp [fieldKeys, hc])
    have : k ∉ fieldKeys rest := by
      intro hc
      refine hk ?_
      simp [fieldKeys] at hc ⊢
      right
      exact hc
    simp [lookupField, hne]
    exact ih k this

theorem sameShapeFields_keys :
    ∀ (fs gs : List (String × JSVal)),
      sameShapeFields fs gs = true → fieldKeys fs = fieldKeys gs := by
  intro fs
  induction fs with
  | nil =>
    intro gs h
    cases gs with
    | nil => rfl
    | cons kw grest => simp [sameShapeFields] at h
  | cons kv rest ih =>
    intro gs h
    cases gs with
    | nil => simp [sameShapeFields] at h
    | cons kw grest =>
      obtain ⟨k, v⟩ := kv
      obtain ⟨k', w⟩ := kw
      have h3 : (k = k' ∧ sameShape v w = true) ∧ sameShapeFields rest grest = true := by
        simpa [sameShapeFields] using h
      simp [fieldKeys]
      exact ⟨h3.1.1, by simpa [fieldKeys] using ih grest h3.2⟩

theorem sameShapeFields_zip :
    ∀ (fs gs : List (String × JSVal)),
      sameShapeFields fs gs = true →
      ∀ p ∈ fs.zip gs, sameShape p.1.2 p.2.2 = true := by
  intro fs
  induction fs with
  | nil => intro gs _ p hp; cases hp
  | cons kv rest ih =>
    intro gs h p hp
    cases gs with
    | nil => cases hp
    | cons kw grest =>
      obtain ⟨k, v⟩ := kv
      obtain ⟨k', w⟩ := kw
      have h3 : (k = k' ∧ sameShape v w = true) ∧ sameShapeFields rest grest = true := by
        simpa [sameShapeFields] using h
      rcases List.mem_cons.mp hp with h1 | h1
      · subst h1
        exact h3.1.2
      · exact ih grest h3.2 p h1

theorem isEqualFields_cons_of_notmem :
    ∀ (l : List (String × JSVal)) (k : String) (v : JSVal) (fs : List (String × JSVal)),
      k ∉ fieldKeys l → isEqualFields l ((k, v) :: fs) = isEqualFields l fs := by
  intro l
  induction l with
  | nil => intro k v fs _; rfl
  | cons kv rest ih =>
    intro k v fs hk
    obtain ⟨k2, v2⟩ := kv
    have hne : k ≠ k2 := by
      intro hc
      exact hk (by simp [fieldKeys, hc])
    have hrest : k ∉ fieldKeys rest := by
      intro hc
      refine hk ?_
      simp [fieldKeys] at hc ⊢
      right
      exact hc
    simp only [isEqualFields, lookupField]
    rw [if_neg hne, ih k v fs hrest]

theorem diffFields_cons_of_notmem :
    ∀ (l : List (String × JSVal)) (k : String) (v : JSVal) (fs : List (String × JSVal)),
      k ∉ fieldKeys l →
      diffFields true l (.obj ((k, v) :: fs)) = diffFields true l (.obj fs) := by
  intro l
  induction l with
  | nil => intro k v fs _; rfl
  | cons kv rest ih =>
    intro k v fs hk
    obtain ⟨k2, v2⟩ := kv
    have hne : k ≠ k2 := by
      intro hc
      exact hk (by simp [fieldKeys, hc])
    have hrest : k ∉ fieldKeys rest := by
      intro hc
      refine hk ?_
      simp [fieldKeys] at hc ⊢
      right
      exact hc
    have hget : reflectGet (.obj ((k, v) :: fs)) k2 = reflectGet (.obj fs) k2 := by
      simp [reflectGet, lookupField, hne]
    rw [diffFields, diffFields, hget, ih k v fs hrest]

theorem applyFields_cons_of_notmem :
    ∀ (l : List (String × JSVal)) (k : String) (e : JSVal) (ds : List (String × JSVal)),
      k ∉ fieldKeys l → applyFields l ((k, e) :: ds) = applyFields l ds := by
  intro l
  induction l with
  | nil => intro k e ds _; rfl
  | cons kv rest ih =>
    intro k e ds hk
    obtain ⟨k2, v2⟩ := kv
    have hne : k ≠ k2 := by
      intro hc
      exact hk (by simp [fieldKeys, hc])
    have hrest : k ∉ fieldKeys rest := by
      intro hc
      refine hk ?_
      simp [fieldKeys] at hc ⊢
      right
      exact hc
    simp only [applyFields, lookupField]
    rw [if_neg hne, ih k e ds hrest]

theorem isEqualFields_sound_aligned :
    ∀ (fs gs : List (String × JSVal)),
      sameShapeFields fs gs = true →
      keysNodup (fieldKeys gs) = true →
      (∀ p ∈ fs.zip gs, isEqual p.2.2 p.1.2 = true → p.2.2 = p.1.2) →
      isEqualFields gs fs = true → gs = fs := by
  intro fs
  induction fs with
  | nil =>
    intro gs hsh _ _ _
    cases gs with
    | nil => rfl
    | cons kw gs' => simp [sameShapeFields] at hsh
  | cons kv fs' ih =>
    intro gs hsh hnd hpt heq
    cases gs with
    | nil => simp [sameShapeFields] at hsh
    | cons kw gs' =>
      obtain ⟨k, v⟩ := kv
      obtain ⟨k', w⟩ := kw
      have h3 : (k = k' ∧ sameShape v w = true) ∧ sameShapeFields fs' gs' = true := by
        simpa [sameShapeFields] using hsh
      obtain ⟨⟨hk, hvw⟩, hsh'⟩ := h3
      subst hk
      have hlook : lookupField ((k, v) :: fs') k = some v := by
        simp [lookupField]
      have hnds : k ∉ fieldKeys gs' ∧ keysNodup (fieldKeys gs') = true := by
        have := hnd
        simp [keysNodup, fieldKeys] at this
        exact ⟨by simpa [fieldKeys] using this.1, by simpa [fieldKeys] using this.2⟩
      rw [isEqualFields, hlook, isEqualFields_cons_of_notmem gs' k v fs' hnds.1] at heq
      have hparts : isEqual w v = true ∧ isEqualFields gs' fs' = true := by
        simpa using heq
      have hw : w = v := hpt ((k, v), (k, w)) (by simp) hparts.1
      have htl := ih gs' hsh' hnds.2
        (fun p hp hh => hpt p (List.mem_cons_of_mem _ hp) hh) hparts.2
      rw [hw, htl]

theorem isEqual_sound :
    ∀ (n : Nat) (v w : JSVal), sizeOf v ≤ n → sameShape v w = true →
      wfJS v = true → wfJS w = true → isEqual w v = true → w = v := by
  intro n
  induction n with
  | zero =>
    intro v w h _ _ _ _
    exfalso
    cases v <;> simp at h
  | succ n ih =>
    intro v w hsz hsh hwv hww heq
    cases v with
    | obj fs =>
      cases w with
      | obj gs =>
        have hshf : sameShapeFields fs gs = true := by simpa [sameShape] using hsh
        have hndg : keysNodup (fieldKeys gs) = true ∧ wfFields gs = true := by
          simpa [wfJS] using hww
        have hndf : keysNodup (fieldKeys fs) = true ∧ wfFields fs = true := by
          simpa [wfJS] using hwv
        have heqf : isEqualFields gs fs = true := by
          have := heq
          simp [isEqual] at this
          exact this.2
        have hfs : sizeOf fs ≤ n := by
          simp at hsz
          omega
        have hpt : ∀ p ∈ fs.zip gs, isEqual p.2.2 p.1.2 = true → p.2.2 = p.1.2 := by
          intro p hp hh
          have hmem := List.mem_zip hp
          have hlt : sizeOf p.1.2 ≤ n := by
            have h1 : sizeOf p.1 < sizeOf fs := List.sizeOf_lt_of_mem hmem.1
            have h2 : sizeOf p.1.2 < sizeOf p.1 := by
              obtain ⟨a, b⟩ := p.1
              simp
            omega
          exact ih p.1.2 p.2.2 hlt (sameShapeFields_zip fs gs hshf p hp)
            (wfFields_mem fs hndf.2 p.1 hmem.1) (wfFields_mem gs hndg.2 p.2 hmem.2) hh
        have := isEqualFields_sound_aligned fs gs hshf hndg.1 hpt heqf
        rw [this]
      | undef => simp [sameShape] at hsh
      | null => simp [sameShape] at hsh
      | bool b => simp [sameShape] at hsh
      | num m => simp [sameShape] at hsh
      | str s => simp [sameShape] at hsh
    | undef =>
      cases w with
      | undef => rfl
      | obj gs => simp [sameShape] at hsh
      | null => simp [isEqual] at heq
      | bool b => simp [isEqual] at heq
      | num m => simp [isEqual] at heq
      | str s => simp [isEqual] at heq
    | null =>
      cases w with
      | null => rfl
      | obj gs => simp [sameShape] at hsh
      | undef => simp [isEqual] at heq
      | bool b => simp [isEqual] at heq
      | num m => simp [isEqual] at heq
      | str s => simp [isEqual] at heq
    | bool b =>
      cases w with
      | bool b2 =>
        have : b2 = b := by simpa [isEqual] using heq
        rw [this]
      | obj gs => simp [sameShape] at hsh
      | undef => simp [isEqual] at heq
      | null => simp [isEqual] at heq
      | num m => simp [isEqual] at heq
      | str s => simp [isEqual] at heq
    | num m =>
      cases w with
      | num m2 =>
        have : m2 = m := by simpa [isEqual] using heq
        rw [this]
      | obj gs => simp [sameShape] at hsh
      | undef => simp [isEqual] at heq
      | null => simp [isEqual] at heq
      | bool b => simp [isEqual] at heq
      | str s => simp [isEqual] at heq
    | str s =>
      cases w with
      | str s2 =>
        have : s2 = s := by simpa [isEqual] using heq
        rw [this]
      | obj gs => simp [sameShape] at hsh
      | undef => simp [isEqual] at heq
      | null => simp [isEqual] at heq
      | bool b => simp [isEqual] at heq
      | num m => simp [isEqual] at heq

theorem diffFields_keys_sub :
    ∀ (l : List (String × JSVal)) (base : JSVal) (ds : List (String × JSVal)),
      diffFields true l base = .ok ds → ∀ k ∈ fieldKeys ds, k ∈ fieldKeys l := by
  intro l
  induction l with
  | nil =>
    intro base ds h k hk
    simp [diffFields] at h
    subst h
    cases hk
  | cons kv rest ih =>
    intro base ds h k hk
    obtain ⟨k0, v0⟩ := kv
    rw [diffFields] at h
    rcases hg : reflectGet base k0 with u | bv0
    · rw [hg] at h; cases h
    · rw [hg] at h
      rcases ht : diffFields true rest base with u | tail
      · rw [ht] at h; cases h
      · rw [ht] at h
        have hsub := ih base tail ht
        cases he : isEqual v0 bv0 with
        | true =>
          simp only [he, Except.ok.injEq] at h
          rw [← h] at hk
          exact List.mem_cons_of_mem _ (hsub k hk)
        | false =>
          simp only [he] at h
          cases hguard : true && isObjectJS v0 && isObjectJS bv0 with
          | false =>
            simp only [hguard, Except.ok.injEq] at h
            rw [← h] at hk
            simp only [fieldKeys, List.map_cons, List.mem_cons] at hk ⊢
            rcases hk with h1 | h1
            · exact Or.inl h1
            · exact Or.inr (by simpa [fieldKeys] using hsub k (by simpa [fieldKeys] using h1))
          | true =>
            simp only [hguard] at h
            rcases hdj : diffJS true v0 bv0 with u | dd
            · rw [hdj] at h; cases h
            · rw [hdj] at h
              simp only [Except.ok.injEq] at h
              rw [← h] at hk
              simp only [fieldKeys, List.map_cons, List.mem_cons] at hk ⊢
              rcases hk with h1 | h1
              · exact Or.inl h1
              · exact Or.inr (by simpa [fieldKeys] using hsub k (by simpa [fieldKeys] using h1))

theorem diffFields_mem_keys_of_diff :
    ∀ (l : List (String × JSVal)) (base : JSVal) (ds : List (String × JSVal)),
      diffFields true l base = .ok ds →
      ∀ (k : String) (w bv : JSVal),
        lookupField l k = some w → reflectGet base k = .ok bv →
        isEqual w bv = true ∨ k ∈ fieldKeys ds := by
  intro l
  induction l with
  | nil =>
    intro base ds _ k w bv hw _
    simp [lookupField] at hw
  | cons kv rest ih =>
    intro base ds h k w bv hw hbv
    obtain ⟨k0, v0⟩ := kv
    rw [diffFields] at h
    rcases hg : reflectGet base k0 with u | bv0
    · rw [hg] at h; cases h
    · rw [hg] at h
      rcases ht : diffFields true rest base with u | tail
      · rw [ht] at h; cases h
      · rw [ht] at h
        by_cases hk : k0 = k
        · subst hk
          have hwv : w = v0 := by
            have := hw
            simp [lookupField] at this
            exact this.symm
          have hbv0 : bv0 = bv := by
            rw [hg] at hbv
            injection hbv
          rw [hwv, ← hbv0]
          cases he : isEqual v0 bv0 with
          | true => exact Or.inl rfl
          | false =>
            right
            simp only [he] at h
            cases hguard : true && isObjectJS v0 && isObjectJS bv0 with
            | false =>
              simp only [hguard, Except.ok.injEq] at h
              rw [← h]
              simp [fieldKeys]
            | true =>
              simp only [hguard] at h
              rcases hdj : diffJS true v0 bv0 with u | dd
              · rw [hdj] at h; cases h
              · rw [hdj] at h
                simp only [Except.ok.injEq] at h
                rw [← h]
                simp [fieldKeys]
        · have hw' : lookupField rest k = some w := by
            simpa [lookupField, hk] using hw
          have hmem := ih base tail ht k w bv hw' hbv
          rcases hmem with h1 | h1
          · exact Or.inl h1
          · right
            cases he : isEqual v0 bv0 with
            | true =>
              simp only [he, Except.ok.injEq] at h
              rw [← h]
              exact h1
            | false =>
              simp only [he] at h
              cases hguard : true && isObjectJS v0 && isObjectJS bv0 with
              | false =>
                simp only [hguard, Except.ok.injEq] at h
                rw [← h]
                exact List.mem_cons_of_mem _ h1
              | true =>
                simp only [hguard] at h
                rcases hdj : diffJS true v0 bv0 with u | dd
                · rw [hdj] at h; cases h
                · rw [hdj] at h
                  simp only [Except.ok.injEq] at h
                  rw [← h]
                  exact List.mem_cons_of_mem _ h1

theorem keysNodup_cons :
    ∀ (k : String) (v : JSVal) (fs : List (String × JSVal)),
      keysNodup (fieldKeys ((k, v) :: fs)) = true →
      k ∉ fieldKeys fs ∧ keysNodup (fieldKeys fs) = true := by
  intro k v fs h
  simp [keysNodup, fieldKeys] at h
  exact ⟨by simpa [fieldKeys] using h.1, by simpa [fieldKeys] using h.2⟩

theorem applyFields_diffFields :
    ∀ (n : Nat) (fs gs ds : List (String × JSVal)),
      sizeOf gs ≤ n →
      sameShapeFields fs gs = true →
      keysNodup (fieldKeys fs) = true → keysNodup (fieldKeys gs) = true →
      wfFields fs = true → wfFields gs = true →
      diffFields true gs (.obj fs) = .ok ds →
      applyFields fs ds = gs := by
  intro n
  induction n with
  | zero =>
    intro fs gs ds h _ _ _ _ _ _
    exfalso
    cases gs <;> simp at h
  | succ n ih =>
    intro fs gs ds hsz hsh hndf hndg hwff hwfg hdiff
    cases gs with
    | nil =>
      cases fs with
      | nil =>
        simp [diffFields] at hdiff
        subst hdiff
        rfl
      | cons kv fs' => simp [sameShapeFields] at hsh
    | cons kw gs' =>
      cases fs with
      | nil => simp [sameShapeFields] at hsh
      | cons kv fs' =>
        obtain ⟨k, v⟩ := kv
        obtain ⟨k2, w⟩ := kw
        have h3 : (k = k2 ∧ sameShape v w = true) ∧ sameShapeFields fs' gs' = true := by
          simpa [sameShapeFields] using hsh
        obtain ⟨⟨hkk, hvw⟩, hsh'⟩ := h3
        subst hkk
        have hndf' := keysNodup_cons k v fs' hndf
        have hndg' := keysNodup_cons k w gs' hndg
        have hwff' : wfJS v = true ∧ wfFields fs' = true := by simpa [wfFields] using hwff
        have hwfg' : wfJS w = true ∧ wfFields gs' = true := by simpa [wfFields] using hwfg
        have hget : reflectGet (.obj ((k, v) :: fs')) k = .ok v := by
          simp [reflectGet, lookupField]
        rw [diffFields, hget, diffFields_cons_of_notmem gs' k v fs' hndg'.1] at hdiff
        rcases hds' : diffFields true gs' (.obj fs') with u | tail
        · rw [hds'] at hdiff; cases hdiff
        · rw [hds'] at hdiff
          have hszr : sizeOf gs' ≤ n := by
            simp at hsz
            omega
          have htail := ih fs' gs' tail hszr hsh' hndf'.2 hndg'.2 hwff'.2 hwfg'.2 hds'
          have hktail : k ∉ fieldKeys tail := fun hc =>
            hndg'.1 (diffFields_keys_sub gs' (.obj fs') tail hds' k hc)
          cases he : isEqual w v with
          | true =>
            simp only [he, Except.ok.injEq] at hdiff
            have hwv : w = v := isEqual_sound (sizeOf v) v w le_rfl hvw hwff'.1 hwfg'.1 he
            rw [applyFields, ← hdiff, lookupField_eq_none tail k hktail, htail, hwv]
          | false =>
            simp only [he] at hdiff
            cases hguard : true && isObjectJS w && isObjectJS v with
            | false =>
              simp only [hguard, Except.ok.injEq] at hdiff
              have hvnobj : isObjectJS v = false := by
                cases hv : isObjectJS v with
                | false => rfl
                | true =>
                  exfalso
                  obtain ⟨vfs, hveq⟩ := isObjectJS_eq_true v hv
                  subst hveq
                  cases w with
                  | obj wfs => simp [isObjectJS] at hguard
                  | undef => simp [sameShape] at hvw
                  | null => simp [sameShape] at hvw
                  | bool b => simp [sameShape] at hvw
                  | num m => simp [sameShape] at hvw
                  | str s => simp [sameShape] at hvw
              have happ : applyDelta v w = w := by
                cases v with
                | obj vfs => simp [isObjectJS] at hvnobj
                | undef => rfl
                | null => rfl
                | bool b => rfl
                | num m => rfl
                | str s => rfl
              have hlk : lookupField ((k, w) :: tail) k = some w := by
                simp [lookupField]
              rw [applyFields, ← hdiff]
              simp only [hlk]
              rw [happ, applyFields_cons_of_notmem fs' k w tail hndf'.1, htail]
            | true =>
              simp only [hguard] at hdiff
              have hpair : isObjectJS w = true ∧ isObjectJS v = true := by
                simpa using hguard
              obtain ⟨wfs, hweq⟩ := isObjectJS_eq_true w hpair.1
              obtain ⟨vfs, hveq⟩ := isObjectJS_eq_true v hpair.2
              subst hweq
              subst hveq
              have hdjeq : diffJS true (.obj wfs) (.obj vfs) =
                  (diffFields true wfs (.obj vfs)).map .obj := rfl
              rcases hdd : diffFields true wfs (.obj vfs) with u | dd
              · rw [hdjeq, hdd] at hdiff
                simp [Except.map] at hdiff
              · rw [hdjeq, hdd] at hdiff
                simp only [Except.map, Except.ok.injEq] at hdiff
                have hszw : sizeOf wfs ≤ n := by
                  simp at hsz
                  omega
                have hshw : sameShapeFields vfs wfs = true := by
                  simpa [sameShape] using hvw
                have hv2 : keysNodup (fieldKeys vfs) = true ∧ wfFields vfs = true := by
                  simpa [wfJS] using hwff'.1
                have hw2 : keysNodup (fieldKeys wfs) = true ∧ wfFields wfs = true := by
                  simpa [wfJS] using hwfg'.1
                have hnested := ih vfs wfs dd hszw hshw hv2.1 hw2.1 hv2.2 hw2.2 hdd
                have hlk : lookupField ((k, JSVal.obj dd) :: tail) k = some (.obj dd) := by
                  simp [lookupField]
                rw [applyFields, ← hdiff]
                simp only [hlk]
                have happ : applyDelta (.obj vfs) (.obj dd) = .obj (applyFields vfs dd) := rfl
                rw [happ, hnested, applyFields_cons_of_notmem fs' k (.obj dd) tail hndf'.1,
                  htail]

/-! Claim theorems. -/

/-- C5: retry(count, delay) invokes the wrapped operation at most
count + 1 times; with count = 2 on an operation failing twice then
succeeding, exactly 3 invocations occur and the final result is the
success; with count = 1 on an always-failing operation, exactly 2
invocations occur and the final emitted value is the last failure,
surfaced unchanged. -/
theorem retry_counts :
    (∀ (ε α : Type) (count : Nat) (op : Nat → Except ε α),
      (retry count op).1 ≤ count + 1) ∧
    (∀ (ε α : Type) (op : Nat → Except ε α) (e₀ e₁ : ε) (a : α),
      op 0 = .error e₀ → op 1 = .error e₁ → op 2 = .ok a →
      retry 2 op = (3, .ok a)) ∧
    (∀ (ε α : Type) (err : Nat → ε) (op : Nat → Except ε α),
      (∀ i, op i = .error (err i)) →
      retry 1 op = (2, .error (err 1))) := by
  refine ⟨?_, ?_, ?_⟩
  · intro ε α count op
    simpa using retryAttempts_fst_le op count 0
  · intro ε α op e₀ e₁ a h0 h1 h2
    simp [retry, retryAttempts, h0, h1, h2]
  · intro ε α err op hfail
    simp [retry, retryAttempts, hfail 0, hfail 1]

/-- Witness for C5 at a concrete operation: failing twice then
succeeding under count = 2, and always failing under count = 1. -/
theorem retry_counts_witness :
    retry 2 (fun i => if i < 2 then (Except.error "e") else .ok 7) = (3, .ok 7) ∧
    retry 1 (fun i => (Except.error (10 + i) : Except Nat Bool)) = (2, .error 11) := by
  constructor
  · exact retry_counts.2.1 String Nat _ "e" "e" 7 (by decide) (by decide) (by decide)
  · exact retry_counts.2.2 Nat Bool (fun i => 10 + i) _ (fun i => rfl)

/-- C10: the interceptor's rxjs retry(3) applies to every failed request
regardless of status: a request failing with a non-401 error is
re-issued 3 more times with the same credential and no prompt, so a
single caller-visible failure corresponds to 4 identical attempts, and
the last failure propagates unchanged. -/
theorem interceptor_retries_all_errors :
    ∀ (α : Type) (handle : Nat → String → Except HttpErrorResponse α)
      (prompts : Nat → Option String) (store0 : AuthStore)
      (err : Nat → HttpErrorResponse),
      (∀ i k, handle i k = .error (err i)) →
      (∀ i, (err i).status ≠ 401) →
      intercept handle prompts store0 =
        ⟨[getApiKey store0, getApiKey store0, getApiKey store0, getApiKey store0],
          0, store0, .error (err 3)⟩ := by
  intro α handle prompts store0 err hfail hstatus
  unfold intercept
  rw [interceptAttempts_allfail hfail 3 0 0 store0]
  have hrange : (List.range 4).map (fun n => err (0 + n)) =
      [err 0, err 1, err 2, err 3] := by
    have : List.range 4 = [0, 1, 2, 3] := by decide
    simp [this]
  rw [hrange]
  simp [promptFold, catchError401, hstatus 0, hstatus 1, hstatus 2, hstatus 3,
    List.replicate]

/-- Witness for C10: a request that always gets a 500 is attempted 4
times with the stored key, with no prompt and the 500 surfaced. -/
theorem interceptor_retries_all_errors_witness :
    intercept (fun _ _ => (Except.error ⟨500⟩ : Except HttpErrorResponse Unit))
        (fun _ => some "fresh") ⟨some "old"⟩ =
      ⟨["old", "old", "old", "old"], 0, ⟨some "old"⟩, .error ⟨500⟩⟩ := by
  exact interceptor_retries_all_errors Unit (fun _ _ => .error ⟨500⟩)
    (fun _ => some "fresh") ⟨some "old"⟩ (fun _ => ⟨500⟩) (fun _ _ => rfl)
    (fun _ => by show (500 : Nat) ≠ 401; decide)

set_option maxHeartbeats 1000000 in
/-- C1 counterexample: a request answered 401 on all attempts, with a
credential stored and the operator answering every prompt, runs 4
attempts (not at most 3), prompts 4 times (not exactly once), and every
attempt carries the old credential — the newly stored one is never
retried with. -/
theorem auth_gate_401_counterexample :
    intercept (fun _ _ => (Except.error ⟨401⟩ : Except HttpErrorResponse Unit))
        (fun _ => some "fresh") ⟨some "old"⟩ =
      ⟨["old", "old", "old", "old"], 4, ⟨some "fresh"⟩, .error ⟨401⟩⟩ ∧
    ¬((intercept (fun _ _ => (Except.error ⟨401⟩ : Except HttpErrorResponse Unit))
        (fun _ => some "fresh") ⟨some "old"⟩).sentKeys.length ≤ 3) ∧
    (intercept (fun _ _ => (Except.error ⟨401⟩ : Except HttpErrorResponse Unit))
        (fun _ => some "fresh") ⟨some "old"⟩).promptCount ≠ 1 ∧
    "fresh" ∉ (intercept (fun _ _ => (Except.error ⟨401⟩ : Except HttpErrorResponse Unit))
        (fun _ => some "fresh") ⟨some "old"⟩).sentKeys := by
  refine ⟨by decide, by decide, by decide, by decide⟩

set_option maxHeartbeats 1000000 in
/-- C1 amended: on a 401 response the interceptor clears the stored
credential when present, prompts once per 401 received (up to 4 prompts
for one request) and stores the reply; the request is retried up to 3
more times (at most 4 total attempts), every attempt carrying the
credential read when the request was first issued — a replacement
credential only serves later requests; once retries are exhausted the
failure propagates unchanged. -/
theorem auth_gate_401_amended :
    ∀ (α : Type) (handle : Nat → String → Except HttpErrorResponse α)
      (prompts : Nat → Option String) (store0 : AuthStore),
      (intercept handle prompts store0).sentKeys.length ≤ 4 ∧
      (∀ k ∈ (intercept handle prompts store0).sentKeys, k = getApiKey store0) ∧
      (∀ err : Nat → HttpErrorResponse,
        (∀ i k, handle i k = .error (err i)) →
        (intercept handle prompts store0).outcome = .error (err 3) ∧
        (intercept handle prompts store0).sentKeys.length = 4 ∧
        (intercept handle prompts store0).promptCount =
          (if (err 0).status = 401 then 1 else 0) + (if (err 1).status = 401 then 1 else 0)
            + (if (err 2).status = 401 then 1 else 0)
            + (if (err 3).status = 401 then 1 else 0)) := by
  intro α handle prompts store0
  refine ⟨interceptAttempts_sentKeys_le handle prompts (getApiKey store0) 3 0 0 store0,
    interceptAttempts_sentKeys_eq handle prompts (getApiKey store0) 3 0 0 store0, ?_⟩
  intro err hfail
  unfold intercept
  rw [interceptAttempts_allfail hfail 3 0 0 store0]
  have hrange : (List.range 4).map (fun n => err (0 + n)) =
      [err 0, err 1, err 2, err 3] := by
    have : List.range 4 = [0, 1, 2, 3] := by decide
    simp [this]
  rw [hrange]
  refine ⟨rfl, by simp, ?_⟩
  by_cases h0 : (err 0).status = 401 <;> by_cases h1 : (err 1).status = 401 <;>
    by_cases h2 : (err 2).status = 401 <;> by_cases h3 : (err 3).status = 401 <;>
    simp [promptFold, catchError401, h0, h1, h2, h3]

/-- Witness for C1 amended at the counterexample's input. -/
theorem auth_gate_401_amended_witness :
    (intercept (fun _ _ => (Except.error ⟨401⟩ : Except HttpErrorResponse Unit))
        (fun _ => some "fresh") ⟨some "old"⟩).outcome = .error ⟨401⟩ ∧
    (intercept (fun _ _ => (Except.error ⟨401⟩ : Except HttpErrorResponse Unit))
        (fun _ => some "fresh") ⟨some "old"⟩).sentKeys.length = 4 ∧
    (intercept (fun _ _ => (Except.error ⟨401⟩ : Except HttpErrorResponse Unit))
        (fun _ => some "fresh") ⟨some "old"⟩).promptCount =
      (if (401 : Nat) = 401 then 1 else 0) + (if (401 : Nat) = 401 then 1 else 0)
        + (if (401 : Nat) = 401 then 1 else 0) + (if (401 : Nat) = 401 then 1 else 0) := by
  exact (auth_gate_401_amended Unit (fun _ _ => .error ⟨401⟩) (fun _ => some "fresh")
    ⟨some "old"⟩).2.2 (fun _ => ⟨401⟩) (fun _ _ => rfl)

/-- C6 counterexample: with a 1000 ms interval and a fetch taking
1500 ms, tick 1 of the polling pipeline fires at wall-clock 1000 ms
while fetch 0 is still pending, and the tick time is not measured from
the fetch's completion (1500 ms) plus the interval. -/
theorem polling_trailing_counterexample :
    pollTickTime 1000 1 = 1000 ∧
    pollFetchPending 1000 (fun _ => 1500) 0 (pollTickTime 1000 1) ∧
    pollTickTime 1000 1 ≠ 1500 + 1000 := by
  refine ⟨by decide, by decide, by decide⟩

/-- C6 amended: the polling pipeline's ticks fire on a fixed wall-clock
schedule independent of fetch completion; a tick firing during a pending
fetch cancels it (switchMap), so at most one fetch is active at any
instant, but the schedule is not trailing. -/
theorem polling_single_flight_amended :
    ∀ (p : Nat) (dur : Nat → Nat) (k j t : Nat), 0 < p →
      pollFetchActive p dur k t → pollFetchActive p dur j t → k = j := by
  intro p dur k j t hp hk hj
  obtain ⟨hk1, hk2⟩ := hk
  obtain ⟨hj1, hj2⟩ := hj
  have hk2' : t < (k + 1) * p := lt_of_lt_of_le hk2 (by simp [pollTickTime, min_le_left])
  have hj2' : t < (j + 1) * p := lt_of_lt_of_le hj2 (by simp [pollTickTime, min_le_left])
  have hdk : t / p = k := Nat.div_eq_of_lt_le hk1 hk2'
  have hdj : t / p = j := Nat.div_eq_of_lt_le hj1 hj2'
  omega

/-- Witness for C6 amended at the counterexample's schedule. -/
theorem polling_single_flight_witness :
    pollFetchActive 1000 (fun _ => 1500) 1 1200 ∧ (1 : Nat) = 1 := by
  refine ⟨by decide, ?_⟩
  exact polling_single_flight_amended 1000 (fun _ => 1500) 1 1 1200 (by decide)
    (by decide) (by decide)

/-- C8: the output of filterValueChanges never contains two structurally
equal consecutive values — an emission deeply equal to the immediately
preceding emitted value is dropped by distinctUntilChanged(isEqual). -/
theorem change_filter_adjacent_distinct :
    ∀ events : List (Nat × JSVal × Bool),
      List.Chain' (fun a b => isEqual a b = false) (filterValueChanges events) := by
  intro events
  exact chain'_distinctUntilChanged isEqual _

/-- C7: every key in a record's delta gets status equal to the record's
success flag (false on failure, true on success); the spread merge
leaves keys not in the delta at their previous status; on initial load
every field's status is true; and in the paragraph-8 scenario a
filesizeLimit edit yields status true on success and false after
retries are exhausted. -/
theorem sync_status_derivation :
    (∀ (detail : DetailRecord) (k : String),
      k ∈ fieldKeys (iterOwn detail.diff) →
      lookupStatus (calcSyncStatus detail) k = some (isSuccessful detail.outcome)) ∧
    (∀ (detail : DetailRecord) (prev : List (String × Bool)) (k : String),
      k ∉ fieldKeys (iterOwn detail.diff) →
      lookupStatus (spreadStatus prev (calcSyncStatus detail)) k = lookupStatus prev k) ∧
    (∀ (settings : JSVal) (k : String),
      k ∈ fieldKeys (iterOwn settings) →
      lookupStatus (initialSyncStatus settings) k = some true) ∧
    (∀ result : JSVal,
      calcSyncStatus ⟨.obj [("filesizeLimit", .num 0)],
        .obj [("filesizeLimit", .num 1073741824)],
        .obj [("filesizeLimit", .num 1073741824)], .result result⟩ =
        [("filesizeLimit", true)]) ∧
    (∀ status : Nat,
      calcSyncStatus ⟨.obj [("filesizeLimit", .num 0)],
        .obj [("filesizeLimit", .num 1073741824)],
        .obj [("filesizeLimit", .num 1073741824)], .failure status⟩ =
        [("filesizeLimit", false)]) := by
  refine ⟨?_, ?_, ?_, ?_, ?_⟩
  · intro detail k hk
    exact lookupStatus_map_const (isSuccessful detail.outcome) (iterOwn detail.diff) k hk
  · intro detail prev k hk
    refine lookupStatus_spread_of_none prev (calcSyncStatus detail) k ?_
    exact lookupStatus_map_const_none (isSuccessful detail.outcome) (iterOwn detail.diff) k hk
  · intro settings k hk
    exact lookupStatus_map_const true (iterOwn settings) k hk
  · intro result
    rfl
  · intro status
    rfl

/-- Witness for C7 at the paragraph-8 scenario record. -/
theorem sync_status_derivation_witness :
    lookupStatus (calcSyncStatus ⟨.obj [("filesizeLimit", .num 0)],
        .obj [("filesizeLimit", .num 1073741824)],
        .obj [("filesizeLimit", .num 1073741824)], .failure 500⟩) "filesizeLimit" =
      some false ∧
    lookupStatus (spreadStatus [("filesizeLimit", true)]
        (calcSyncStatus ⟨.obj [("outDir", .str "x")], .obj [("outDir", .str "y")],
          .obj [("outDir", .str "y")], .failure 500⟩)) "filesizeLimit" =
      lookupStatus [("filesizeLimit", true)] "filesizeLimit" ∧
    lookupStatus (initialSyncStatus (.obj [("filesizeLimit", .num 0)])) "filesizeLimit" =
      some true := by
  refine ⟨?_, ?_, ?_⟩
  · exact sync_status_derivation.1 ⟨.obj [("filesizeLimit", .num 0)],
      .obj [("filesizeLimit", .num 1073741824)],
      .obj [("filesizeLimit", .num 1073741824)], .failure 500⟩ "filesizeLimit" (by decide)
  · exact sync_status_derivation.2.1 ⟨.obj [("outDir", .str "x")], .obj [("outDir", .str "y")],
      .obj [("outDir", .str "y")], .failure 500⟩ [("filesizeLimit", true)] "filesizeLimit"
      (by decide)
  · exact sync_status_derivation.2.2.1 (.obj [("filesizeLimit", .num 0)]) "filesizeLimit"
      (by decide)

/-- C3: within one syncSettings run, each emitted record diffs its edit
against the snapshot carried over from the record before it: the records'
currents are exactly the edits in order, the first record's previous is
the initial value, every record's previous is the preceding record's
current, and every record's delta is difference(current, previous). -/
theorem prev_snapshot_chaining :
    ∀ (init : JSVal) (edits : List JSVal) (recs : List SyncDetail),
      syncScan init edits = .ok recs →
      recs.map SyncDetail.curr = edits ∧
      (∀ h : 0 < recs.length, (recs.get ⟨0, h⟩).prev = init) ∧
      List.Chain' (fun r₁ r₂ => r₂.prev = r₁.curr) recs ∧
      (∀ r ∈ recs, difference r.curr r.prev = .ok r.diff) := by
  intro init edits
  induction edits generalizing init with
  | nil =>
    intro recs h
    simp only [syncScan] at h
    cases h
    simp
  | cons e rest ih =>
    intro recs h
    simp only [syncScan] at h
    rcases hd : difference e init with u | d
    · rw [hd] at h
      cases h
    · rw [hd] at h
      rcases ht : syncScan e rest with u | tail
      · rw [ht] at h
        cases h
      · rw [ht] at h
        cases h
        obtain ⟨ihmap, ihfirst, ihchain, ihdiff⟩ := ih e tail ht
        refine ⟨by simp [ihmap], fun _ => rfl, ?_, ?_⟩
        · refine List.chain'_cons'.mpr ⟨?_, ihchain⟩
          intro y hy
          cases tail with
          | nil => cases hy
          | cons t ts =>
            simp at hy
            subst hy
            exact ihfirst (by simp)
        · intro r hr
          rcases List.mem_cons.mp hr with h1 | h1
          · subst h1
            exact hd
          · exact ihdiff r h1

/-- Witness for C3 on a concrete two-edit stream. -/
theorem prev_snapshot_chaining_witness :
    [SyncDetail.mk (.obj [("a", .num 0)]) (.obj [("a", .num 1)]) (.obj [("a", .num 1)]),
      SyncDetail.mk (.obj [("a", .num 1)]) (.obj [("a", .num 2)])
        (.obj [("a", .num 2)])].map SyncDetail.curr =
      [.obj [("a", .num 1)], .obj [("a", .num 2)]] ∧
    List.Chain' (fun r₁ r₂ => r₂.prev = r₁.curr)
      [SyncDetail.mk (.obj [("a", .num 0)]) (.obj [("a", .num 1)]) (.obj [("a", .num 1)]),
        SyncDetail.mk (.obj [("a", .num 1)]) (.obj [("a", .num 2)]) (.obj [("a", .num 2)])] := by
  have h := prev_snapshot_chaining (.obj [("a", .num 0)])
    [.obj [("a", .num 1)], .obj [("a", .num 2)]]
    [⟨.obj [("a", .num 0)], .obj [("a", .num 1)], .obj [("a", .num 1)]⟩,
      ⟨.obj [("a", .num 1)], .obj [("a", .num 2)], .obj [("a", .num 2)]⟩] (by decide)
  exact ⟨h.1, h.2.2.1⟩

/-- C2 counterexample: with both edits equal to the initial snapshot
(edit two equals edit one post-trim), syncSettings issues zero writes,
not exactly one. -/
theorem empty_delta_counterexample :
    networkWrites (.obj [("a", .num 0)])
        [.obj [("a", .num 0)], .obj [("a", .num 0)]] = .ok 0 ∧
    networkWrites (.obj [("a", .num 0)])
        [.obj [("a", .num 0)], .obj [("a", .num 0)]] ≠ .ok 1 := by
  refine ⟨by decide, by decide⟩

/-- C2 amended: an edit whose delta against the previous snapshot is
empty causes no network call and no accepted record; and for an edit
stream where the second edit equals the first, exactly one write is
issued provided the first edit's delta against the initial value is
non-empty (zero writes when it is empty). -/
theorem empty_delta_amended :
    (∀ (init e d : JSVal) (edits : List JSVal),
      difference e (edits.getLastD init) = .ok d → isEmptyJS d = true →
      networkWrites init (edits ++ [e]) = networkWrites init edits ∧
      acceptedDetails init (edits ++ [e]) = acceptedDetails init edits) ∧
    (∀ (init e d : JSVal),
      isObjectJS e = true → wfJS e = true →
      difference e init = .ok d → isEmptyJS d = false →
      networkWrites init [e, e] = .ok 1) := by
  constructor
  · intro init e d edits hd hempty
    have hempty' : (!isEmptyJS d) = false := by rw [hempty]; rfl
    have hacc : acceptedDetails init (edits ++ [e]) = acceptedDetails init edits := by
      unfold acceptedDetails
      rw [syncScan_append]
      rw [List.getLastD_eq_getLast?] at hd
      cases hs : syncScan init edits with
      | error u => simp [Except.bind, Except.map]
      | ok recs =>
        simp [Except.bind, hd, Except.map, List.filter_append, List.filter, hempty']
    refine ⟨?_, hacc⟩
    unfold networkWrites
    rw [hacc]
  · intro init e d hobj hwf hd hne
    have hne' : (!isEmptyJS d) = true := by rw [hne]; rfl
    have hmt : (!isEmptyJS (JSVal.obj [])) = false := rfl
    have hself := difference_self e hobj hwf
    have hscan : syncScan init [e, e] = .ok [⟨init, e, d⟩, ⟨e, e, .obj []⟩] := by
      simp [syncScan, hd, hself]
    unfold networkWrites acceptedDetails
    rw [hscan]
    simp [Except.map, List.filter, hne', hmt]

/-- Witness for C2 amended: a real edit followed by an identical edit
gives exactly one write, and appending an unchanged edit adds no write. -/
theorem empty_delta_amended_witness :
    networkWrites (.obj [("a", .num 0)])
        [.obj [("a", .num 1)], .obj [("a", .num 1)]] = .ok 1 ∧
    networkWrites (.obj [("a", .num 0)])
        ([.obj [("a", .num 1)]] ++ [.obj [("a", .num 1)]]) =
      networkWrites (.obj [("a", .num 0)]) [.obj [("a", .num 1)]] := by
  constructor
  · exact empty_delta_amended.2 (.obj [("a", .num 0)]) (.obj [("a", .num 1)])
      (.obj [("a", .num 1)]) (by decide) (by decide) (by decide) (by decide)
  · exact (empty_delta_amended.1 (.obj [("a", .num 0)]) (.obj [("a", .num 1)])
      (.obj []) [.obj [("a", .num 1)]] (by decide) (by decide)).1

/-- C9 counterexample: difference throws a TypeError (Reflect.get on a
non-object) when the base is undefined and the current snapshot has at
least one own property, instead of treating the absent base as an empty
snapshot. -/
theorem differ_totality_counterexample :
    difference (.obj [("a", .num 1)]) .undef = .error () := by
  decide

/-- C9 amended: difference never raises when the base is an object, and
an undefined current input is treated as an empty snapshot (the result
is the empty delta) for every base; but a non-object base together with
a current that has own properties raises a TypeError. -/
theorem differ_totality_amended :
    (∀ (object base : JSVal), isObjectJS base = true →
      ∃ d, difference object base = .ok d) ∧
    (∀ base : JSVal, difference .undef base = .ok (.obj [])) := by
  constructor
  · intro object base hb
    obtain ⟨gs, rfl⟩ := isObjectJS_eq_true base hb
    cases object with
    | obj ofs =>
      obtain ⟨ds, hds⟩ := diffFields_obj_ok (sizeOf ofs) ofs gs le_rfl
      exact ⟨.obj ds, by simp [difference, diffJS, hds, Except.map]⟩
    | str s =>
      obtain ⟨ds, hds⟩ := diffLeafFields_obj_ok (iterOwn (.str s)) gs
      exact ⟨.obj ds, by simp [difference, diffJS, hds, Except.map]⟩
    | undef => exact ⟨.obj [], rfl⟩
    | null => exact ⟨.obj [], rfl⟩
    | bool b => exact ⟨.obj [], rfl⟩
    | num n => exact ⟨.obj [], rfl⟩
  · intro base
    rfl

/-- Witness for C9 amended at a concrete object base. -/
theorem differ_totality_amended_witness :
    (∃ d, difference (.obj [("a", .num 1)]) (.obj [("b", .str "x")]) = .ok d) ∧
    difference .undef .undef = .ok (.obj []) := by
  constructor
  · exact differ_totality_amended.1 (.obj [("a", .num 1)]) (.obj [("b", .str "x")])
      (by decide)
  · have h2 := differ_totality_amended.2 JSVal.undef
    exact h2

/-- C4: for two well-formed snapshots A and B of the same shape, applying
the delta difference(B, A) to A (spec-modelled applyDelta: replace at
scalar leaves, recurse on nested sub-results, keep fields outside the
delta) reconstructs B; and every top-level field whose value differs
between B and A appears in the delta. -/
theorem diff_apply_round_trip :
    ∀ (A B d : JSVal),
      isObjectJS A = true → sameShape A B = true →
      wfJS A = true → wfJS B = true →
      difference B A = .ok d →
      applyDelta A d = B ∧
      (∀ (k : String) (w v : JSVal),
        lookupJS B k = some w → lookupJS A k = some v →
        isEqual w v = false → k ∈ fieldKeys (iterOwn d)) := by
  intro A B d hA hsh hwA hwB hdiff
  obtain ⟨fs, rfl⟩ := isObjectJS_eq_true A hA
  cases B with
  | obj gs =>
    have hde : difference (.obj gs) (.obj fs) = (diffFields true gs (.obj fs)).map .obj := rfl
    rcases hds : diffFields true gs (.obj fs) with u | ds
    · rw [hde, hds] at hdiff
      simp [Except.map] at hdiff
    · rw [hde, hds] at hdiff
      simp only [Except.map, Except.ok.injEq] at hdiff
      subst hdiff
      have hshf : sameShapeFields fs gs = true := by
        simpa [sameShape] using hsh
      have hfsplit : keysNodup (fieldKeys fs) = true ∧ wfFields fs = true := by
        simpa [wfJS] using hwA
      have hgsplit : keysNodup (fieldKeys gs) = true ∧ wfFields gs = true := by
        simpa [wfJS] using hwB
      constructor
      · have happ := applyFields_diffFields (sizeOf gs) fs gs ds le_rfl hshf
          hfsplit.1 hgsplit.1 hfsplit.2 hgsplit.2 hds
        show JSVal.obj (applyFields fs ds) = JSVal.obj gs
        rw [happ]
      · intro k w v hw hv hne
        have hget : reflectGet (.obj fs) k = .ok v := by
          have hv' : lookupField fs k = some v := by simpa [lookupJS] using hv
          simp [reflectGet, hv']
        have hmem := diffFields_mem_keys_of_diff gs (.obj fs) ds hds k w v
          (by simpa [lookupJS] using hw) hget
        rcases hmem with h1 | h1
        · rw [h1] at hne
          cases hne
        · simpa [iterOwn] using h1
  | undef => simp [sameShape] at hsh
  | null => simp [sameShape] at hsh
  | bool b => simp [sameShape] at hsh
  | num m => simp [sameShape] at hsh
  | str s => simp [sameShape] at hsh

/-- Witness for C4 on a nested concrete pair of snapshots. -/
theorem diff_apply_round_trip_witness :
    applyDelta (.obj [("o", .obj [("x", .num 0), ("y", .num 2)]), ("z", .str "t")])
        (.obj [("o", .obj [("x", .num 1)]), ("z", .str "s")]) =
      .obj [("o", .obj [("x", .num 1), ("y", .num 2)]), ("z", .str "s")] ∧
    "z" ∈ fieldKeys (iterOwn (.obj [("o", .obj [("x", .num 1)]), ("z", .str "s")])) := by
  have h := diff_apply_round_trip
    (.obj [("o", .obj [("x", .num 0), ("y", .num 2)]), ("z", .str "t")])
    (.obj [("o", .obj [("x", .num 1), ("y", .num 2)]), ("z", .str "s")])
    (.obj [("o", .obj [("x", .num 1)]), ("z", .str "s")])
    (by decide) (by decide) (by decide) (by decide) (by decide)
  exact ⟨h.1, h.2 "z" (.str "s") (.str "t") (by decide) (by decide) (by decide)⟩

end Blrec
